import Mathlib

/-!
Verification of the text-normalization core of the CleanAI repository
(`src/text-cleaning-app/src/js/textCleaner.js`).

JS strings are modelled as lists of UTF-16 code units; every character the
program manipulates lies in the Basic Multilingual Plane, so a code unit is
identified with a `Char` and `List.length` is the JS `.length`.
`text.replace(/lit/g, r)` for a literal pattern is modelled by `replaceAll`,
`(text.match(/lit/g) || []).length` by `countOccs`, character classes by
`List.filter` / `List.countP`, and the run-collapsing regexes `/  +/g` and
`/\n{3,}/g` by dedicated scanners below.
-/

namespace CleanAI

abbrev Text := List Char

/-- Does `s` start with the pattern `p`? -/
def startsWith : Text → Text → Bool
  | [], _ => true
  | _ :: _, [] => false
  | p :: ps, c :: cs => p == c && startsWith ps cs

/-- Does `p` occur as a contiguous substring of `s`? -/
def occursIn (p : Text) : Text → Bool
  | [] => p.isEmpty
  | c :: cs => startsWith p (c :: cs) || occursIn p cs

/-- Recursion core of `replaceAll`, structural on a fuel argument so that the
kernel can evaluate it; the fuel is always at least the list length. -/
def replaceAllGo (p r : Text) : Nat → Text → Text
  | _, [] => []
  | 0, s => s
  | fuel + 1, c :: cs =>
    if startsWith p (c :: cs) && !p.isEmpty then
      r ++ replaceAllGo p r fuel (cs.drop (p.length - 1))
    else
      c :: replaceAllGo p r fuel cs

/-- Replacement semantics: `replaceAll p r s` models `s.replace(/p/g, r)` for a literal nonempty
pattern `p`: leftmost, non-overlapping replacement of every occurrence. -/
def replaceAll (p r : Text) (s : Text) : Text :=
  replaceAllGo p r s.length s

/-- Recursion core of `countOccs`, structural on fuel. -/
def countOccsGo (p : Text) : Nat → Text → Nat
  | _, [] => 0
  | 0, _ => 0
  | fuel + 1, c :: cs =>
    if startsWith p (c :: cs) && !p.isEmpty then
      1 + countOccsGo p fuel (cs.drop (p.length - 1))
    else
      countOccsGo p fuel cs

/-- Match-count semantics: `countOccs p s` models `(s.match(/p/g) || []).length` for a literal
nonempty pattern `p`: the number of leftmost non-overlapping occurrences. -/
def countOccs (p : Text) (s : Text) : Nat :=
  countOccsGo p s.length s

/-- Apply a character-to-string function pointwise and concatenate. -/
def charwise (f : Char → Text) : Text → Text
  | [] => []
  | c :: cs => f c ++ charwise f cs

/-!
Single-character replacement tables. The source's rule methods are chains of
`cleaned = cleaned.replace(/c/g, repl)` statements (written out one after the
other, or as a `forEach` over an array of `[regex, replacement]` pairs), each
accompanied by a per-step count: either the match count or the length delta.
`chainRun` is that chain, threading `(count, text)` left to right.
-/

/-- A table of single-character patterns with their replacement strings. -/
abbrev RTable := List (Char × Text)

/-- How a rule counts a replacement step: by match count (`matches`, used by
the replace-style rules) or by length difference (`delta`, used by the
deletion-style rules). -/
inductive CountMode
  | matches
  | delta

/-- The count contributed by one table entry on the current text. -/
def entryCount : CountMode → Char → Text → Text → Nat
  | .matches, a, _, t => countOccs [a] t
  | .delta, a, r, t => t.length - (replaceAll [a] r t).length

/-- One step of the chain: add this entry's count, rewrite the text. -/
def chainStep (mode : CountMode) (acc : Nat × Text) (e : Char × Text) : Nat × Text :=
  (acc.1 + entryCount mode e.1 e.2 acc.2, replaceAll [e.1] e.2 acc.2)

/-- Run a whole table over a text, accumulating the count. -/
def chainRun (mode : CountMode) (table : RTable) (t : Text) : Nat × Text :=
  table.foldl (chainStep mode) (0, t)

/-- The text component of a chain, ignoring counts. -/
def chainText (table : RTable) (t : Text) : Text :=
  table.foldl (fun acc e => replaceAll [e.1] e.2 acc) t

/-!
The two run-collapsing regexes. `/  +/g → ' '` rewrites every maximal run of
two or more spaces to a single space, which is the same as deleting every
space immediately followed by another space (`collapseSpaces`; the match
count `countSpaceRuns` sees one match per such maximal run). Similarly
`/\\n{3,}/g → '\\n\\n'` rewrites every maximal run of three or more line feeds
to exactly two, i.e. deletes every line feed immediately followed by two more
(`collapseNl`), the source counting `match.length - 2` per match, i.e. one
per deleted line feed (`nlExcess`).
-/

/-- Space-run collapsing, `text.replace(/  +/g, ' ')`. -/
def collapseSpaces : Text → Text
  | [] => []
  | [c] => [c]
  | c1 :: c2 :: rest =>
    if c1 = ' ' ∧ c2 = ' ' then collapseSpaces (c2 :: rest)
    else c1 :: collapseSpaces (c2 :: rest)

/-- Space-run match count, `(text.match(/  +/g) || []).length`: one match per maximal run of two or
more spaces; each such run is recognised at its final pair of spaces. -/
def countSpaceRuns : Text → Nat
  | [] => 0
  | [_] => 0
  | [c1, c2] => if c1 = ' ' ∧ c2 = ' ' then 1 else 0
  | c1 :: c2 :: c3 :: rest =>
    (if c1 = ' ' ∧ c2 = ' ' ∧ c3 ≠ ' ' then 1 else 0) + countSpaceRuns (c2 :: c3 :: rest)

/-- Line-feed-run collapsing, `text.replace(/\\n{3,}/g, '\\n\\n')`. -/
def collapseNl : Text → Text
  | [] => []
  | [c] => [c]
  | [c1, c2] => [c1, c2]
  | c1 :: c2 :: c3 :: rest =>
    if c1 = '\n' ∧ c2 = '\n' ∧ c3 = '\n' then collapseNl (c2 :: c3 :: rest)
    else c1 :: collapseNl (c2 :: c3 :: rest)

/-- The sum of `match.length - 2` over the matches of `/\\n{3,}/g`. -/
def nlExcess : Text → Nat
  | [] => 0
  | [_] => 0
  | [_, _] => 0
  | c1 :: c2 :: c3 :: rest =>
    (if c1 = '\n' ∧ c2 = '\n' ∧ c3 = '\n' then 1 else 0) + nlExcess (c2 :: c3 :: rest)

/-!
Data model: statistics record, cleaning result, the loosely-typed JS input
value (`cleanText` guards on `!text || typeof text !== 'string'`), and the
options object with one boolean per rule (absent keys are falsy).
-/

structure Stats where
  removedCount : Nat
  replacedCount : Nat
  originalLength : Nat
  finalLength : Nat
deriving DecidableEq

structure CleaningResult where
  cleanedText : Text
  stats : Stats
deriving DecidableEq

/-- A JavaScript value as far as `cleanText`'s input guard can observe it. -/
inductive JsValue where
  | null
  | undefined
  | bool (b : Bool)
  | num (n : Int)
  | str (s : Text)
deriving DecidableEq

/-- JS truthiness: `!v` is true exactly on falsy values. -/
def isFalsy : JsValue → Bool
  | .null => true
  | .undefined => true
  | .bool b => !b
  | .num n => n == 0
  | .str s => s.isEmpty

/-- String test, `typeof v === 'string'`. -/
def isString : JsValue → Bool
  | .str _ => true
  | _ => false

structure Options where
  removeHiddenChars : Bool := false
  convertNonBreaking : Bool := false
  normalizeDashes : Bool := false
  normalizeQuotes : Bool := false
  convertEllipsis : Bool := false
  removeTrailing : Bool := false
  normalizeMathSymbols : Bool := false
  fixUnicodePunctuation : Bool := false
  normalizeSpacing : Bool := false
  removeAIArtifacts : Bool := false
  fixEncodingIssues : Bool := false
deriving DecidableEq

/-- A table of string patterns with replacement strings (`fixEncodingIssues`). -/
abbrev STable := List (Text × Text)

def strChainStep (acc : Nat × Text) (e : Text × Text) : Nat × Text :=
  (acc.1 + countOccs e.1 acc.2, replaceAll e.1 e.2 acc.2)

def strChainRun (table : STable) (t : Text) : Nat × Text :=
  table.foldl strChainStep (0, t)

/-- A chain of per-class deletions (`removeAIArtifacts`'s `forEach`). -/
def classChain (classes : List (Char → Bool)) (t : Text) : Text :=
  classes.foldl (fun acc p => acc.filter (fun c => !(p c))) t

namespace TextCleaner

/-- The `hiddenChars` array of `removeHiddenCharacters`; each is deleted. -/
def hiddenChars : RTable :=
  [('​', []), ('‌', []), ('‍', []), ('⁠', []), ('﻿', []),
   ('‎', []), ('‏', []), ('‪', []), ('‫', []), ('‬', []),
   ('‭', []), ('‮', []), ('؜', []), ('᠎', []), ('͏', [])]

def removeHiddenCharacters (st : Stats) (t : Text) : Stats × Text :=
  let run := chainRun .delta hiddenChars t
  ({ st with removedCount := st.removedCount + run.1 }, run.2)

/-- Rule `convertNonBreakingSpaces`: replaces U+00A0 by a space, then counts
`beforeLength - cleaned.length + (spaces in cleaned) - (spaces in text)`
and adds its absolute value to `replacedCount`. -/
def convertNonBreakingSpaces (st : Stats) (t : Text) : Stats × Text :=
  let beforeLength := t.length
  let cleaned := replaceAll [' '] [' '] t
  let replacedCount : Int :=
    (beforeLength : Int) - (cleaned.length : Int)
      + (countOccs [' '] cleaned : Int) - (countOccs [' '] t : Int)
  ({ st with replacedCount := st.replacedCount + replacedCount.natAbs }, cleaned)

/-- Em dash, en dash, minus sign, each to a hyphen, counted by matches. -/
def dashFixes : RTable :=
  [('—', ['-']), ('–', ['-']), ('−', ['-'])]

def normalizeDashes (st : Stats) (t : Text) : Stats × Text :=
  let run := chainRun .matches dashFixes t
  ({ st with replacedCount := st.replacedCount + run.1 }, run.2)

/-- Curly and low-9 quotes to straight quotes, in source statement order. -/
def quoteFixes : RTable :=
  [('‘', ['\'']), ('’', ['\'']), ('“', ['"']), ('”', ['"']),
   ('„', ['"']), ('‚', ['\''])]

def normalizeQuotes (st : Stats) (t : Text) : Stats × Text :=
  let run := chainRun .matches quoteFixes t
  ({ st with replacedCount := st.replacedCount + run.1 }, run.2)

def convertEllipsis (st : Stats) (t : Text) : Stats × Text :=
  let ellipsisCount := countOccs ['…'] t
  let cleaned := replaceAll ['…'] "...".toList t
  ({ st with replacedCount := st.replacedCount + ellipsisCount }, cleaned)

/-- The ECMAScript `\s` class (whitespace and line terminators). -/
def isJsWhitespace (c : Char) : Bool :=
  c == '\t' || c == '\n' || c == '\u000B' || c == '\u000C' || c == '\r' || c == ' ' ||
  c == ' ' || c == ' ' || (decide (' ' ≤ c) && decide (c ≤ ' ')) ||
  c == ' ' || c == ' ' || c == ' ' || c == ' ' ||
  c == '　' || c == '﻿'

/-- Per-line trim, `line.replace(/\s+$/, '')`: strip the trailing run of whitespace. -/
def dropTrailingWs (l : Text) : Text :=
  (l.reverse.dropWhile isJsWhitespace).reverse

def removeTrailingWhitespace (st : Stats) (t : Text) : Stats × Text :=
  let lines := t.splitOn '\n'
  let removedCount := (lines.map (fun l => l.length - (dropTrailingWs l).length)).sum
  ({ st with removedCount := st.removedCount + removedCount },
   [('\n' : Char)].intercalate (lines.map dropTrailingWs))

/-- The `mathReplacements` table, in source order. -/
def mathReplacements : RTable :=
  [('×', "*".toList), ('÷', "/".toList), ('≤', "<=".toList),
   ('≥', ">=".toList), ('≠', "!=".toList), ('±', "+/-".toList),
   ('∞', "infinity".toList), ('°', " degrees".toList), ('′', "'".toList),
   ('″', "\"".toList), ('‰', "%o".toList), ('∑', "sum".toList),
   ('∏', "product".toList), ('√', "sqrt".toList), ('∆', "delta".toList),
   ('π', "pi".toList), ('µ', "micro".toList)]

def normalizeMathSymbols (st : Stats) (t : Text) : Stats × Text :=
  let run := chainRun .matches mathReplacements t
  ({ st with replacedCount := st.replacedCount + run.1 }, run.2)

/-- The `punctuationFixes` table, in source order. -/
def punctuationFixes : RTable :=
  [('‚', ",".toList), ('„', "\"".toList), ('‹', "<".toList),
   ('›', ">".toList), ('«', "<<".toList), ('»', ">>".toList),
   ('¡', "!".toList), ('¿', "?".toList), ('‾', "_".toList),
   ('⁄', "/".toList), ('∕', "/".toList), ('⧸', "/".toList),
   ('⧹', "\\".toList), ('＼', "\\".toList), ('／', "/".toList)]

def fixUnicodePunctuation (st : Stats) (t : Text) : Stats × Text :=
  let run := chainRun .matches punctuationFixes t
  ({ st with replacedCount := st.replacedCount + run.1 }, run.2)

/-- The `spaceChars` array: each exotic space becomes an ASCII space. -/
def spaceChars : RTable :=
  [(' ', [' ']), (' ', [' ']), (' ', [' ']), (' ', [' ']),
   (' ', [' ']), (' ', [' ']), (' ', [' ']), (' ', [' ']),
   (' ', [' ']), (' ', [' ']), (' ', [' ']), ('　', [' '])]

def normalizeSpacing (st : Stats) (t : Text) : Stats × Text :=
  let run := chainRun .matches spaceChars t
  let multi := countSpaceRuns run.2
  ({ st with replacedCount := st.replacedCount + run.1 + multi }, collapseSpaces run.2)

/-- The `artifacts` regex classes of `removeAIArtifacts`, in source order. -/
def artifactClasses : List (Char → Bool) :=
  [fun c => c == '­',
   fun c => c == '�',
   fun c => decide (c.toNat ≤ 0x8),
   fun c => decide (0xB ≤ c.toNat) && decide (c.toNat ≤ 0xC),
   fun c => decide (0xE ≤ c.toNat) && decide (c.toNat ≤ 0x1F),
   fun c => c == '\u007F',
   fun c => decide (0x80 ≤ c.toNat) && decide (c.toNat ≤ 0x9F)]

def removeAIArtifacts (st : Stats) (t : Text) : Stats × Text :=
  let cleaned := classChain artifactClasses t
  let removed := t.length - cleaned.length
  let excess := nlExcess cleaned
  ({ st with removedCount := st.removedCount + removed + excess }, collapseNl cleaned)

/-- The `encodingFixes` table with the file's exact code points. The em-dash
and en-dash rows both read U+00E2 U+20AC U+0022 in the source file (the file
itself is mojibake-damaged), and the `Â `-row pattern is U+00C2 then an ASCII
space. -/
def encodingFixes : STable :=
  [(['â', '€', '™'], ['\'']),
   (['â', '€', 'œ'], ['"']),
   (['â', '€'], ['"']),
   (['â', '€', '"'], ['—']),
   (['â', '€', '"'], ['–']),
   (['â', '€', '¦'], "...".toList),
   (['Â', ' '], [' ']),
   (['Ã', '¡'], ['á']),
   (['Ã', '©'], ['é']),
   (['Ã', '­'], ['í']),
   (['Ã', '³'], ['ó']),
   (['Ã', 'º'], ['ú']),
   (['Ã', '±'], ['ñ']),
   (['â', '„', '¢'], ['™']),
   (['Â', '©'], ['©']),
   (['Â', '®'], ['®'])]

def fixEncodingIssues (st : Stats) (t : Text) : Stats × Text :=
  let run := strChainRun encodingFixes t
  ({ st with replacedCount := st.replacedCount + run.1 }, run.2)

/-- The comparison table for the dead-entry claim: `encodingFixes` with the
three entries whose pattern extends `â€` (the em-dash, en-dash and ellipsis
mojibake rows, entries 4–6) removed. -/
def encodingFixesTrimmed : STable :=
  encodingFixes.take 3 ++ encodingFixes.drop 6

/-- Variant of `fixEncodingIssues` with the dead entries removed. -/
def fixEncodingIssuesTrimmed (st : Stats) (t : Text) : Stats × Text :=
  let run := strChainRun encodingFixesTrimmed t
  ({ st with replacedCount := st.replacedCount + run.1 }, run.2)

end TextCleaner

/-!
The pipeline. `cleanText` is the source's guard followed by the literal chain
of `if (options.flag) { cleanedText = this.xxx(cleanedText); }` statements;
`RuleCategory`, `ruleFn` and `runPipeline` name the same rules abstractly so
that order claims can be stated.
-/

inductive RuleCategory where
  | HiddenCharacters
  | NonBreakingSpace
  | Dashes
  | Quotes
  | Ellipsis
  | TrailingWhitespace
  | MathSymbols
  | UnicodePunctuation
  | Spacing
  | AIArtifacts
  | EncodingIssues
deriving DecidableEq

def ruleFn : RuleCategory → Stats → Text → Stats × Text
  | .HiddenCharacters => TextCleaner.removeHiddenCharacters
  | .NonBreakingSpace => TextCleaner.convertNonBreakingSpaces
  | .Dashes => TextCleaner.normalizeDashes
  | .Quotes => TextCleaner.normalizeQuotes
  | .Ellipsis => TextCleaner.convertEllipsis
  | .TrailingWhitespace => TextCleaner.removeTrailingWhitespace
  | .MathSymbols => TextCleaner.normalizeMathSymbols
  | .UnicodePunctuation => TextCleaner.fixUnicodePunctuation
  | .Spacing => TextCleaner.normalizeSpacing
  | .AIArtifacts => TextCleaner.removeAIArtifacts
  | .EncodingIssues => TextCleaner.fixEncodingIssues

/-- Which option flag enables which rule category. -/
def enabled (o : Options) : RuleCategory → Bool
  | .HiddenCharacters => o.removeHiddenChars
  | .NonBreakingSpace => o.convertNonBreaking
  | .Dashes => o.normalizeDashes
  | .Quotes => o.normalizeQuotes
  | .Ellipsis => o.convertEllipsis
  | .TrailingWhitespace => o.removeTrailing
  | .MathSymbols => o.normalizeMathSymbols
  | .UnicodePunctuation => o.fixUnicodePunctuation
  | .Spacing => o.normalizeSpacing
  | .AIArtifacts => o.removeAIArtifacts
  | .EncodingIssues => o.fixEncodingIssues

/-- The order in which `cleanText` actually applies the rules. -/
def codeOrder : List RuleCategory :=
  [.HiddenCharacters, .NonBreakingSpace, .Dashes, .Quotes, .Ellipsis,
   .TrailingWhitespace, .MathSymbols, .UnicodePunctuation, .Spacing,
   .AIArtifacts, .EncodingIssues]

/-- The order the specification document calls canonical. -/
def specOrder : List RuleCategory :=
  [.HiddenCharacters, .EncodingIssues, .NonBreakingSpace, .Dashes, .Quotes,
   .Ellipsis, .MathSymbols, .UnicodePunctuation, .Spacing, .AIArtifacts,
   .TrailingWhitespace]

/-- Sequential composition of the enabled rules in a given order, threading
statistics and text. -/
def runPipeline (order : List RuleCategory) (o : Options) (st : Stats) (t : Text) :
    Stats × Text :=
  order.foldl (fun acc c => if enabled o c then ruleFn c acc.1 acc.2 else acc) (st, t)

/-- The body of `cleanText` after the input guard: reset statistics, record
`originalLength`, run the option-guarded rule chain in source order, record
`finalLength`. -/
def cleanTextStr (text : Text) (o : Options) : Stats × Text :=
  let st0 : Stats :=
    { removedCount := 0, replacedCount := 0, originalLength := text.length,
      finalLength := 0 }
  let p0 : Stats × Text := (st0, text)
  let p1 := if enabled o .HiddenCharacters then ruleFn .HiddenCharacters p0.1 p0.2 else p0
  let p2 := if enabled o .NonBreakingSpace then ruleFn .NonBreakingSpace p1.1 p1.2 else p1
  let p3 := if enabled o .Dashes then ruleFn .Dashes p2.1 p2.2 else p2
  let p4 := if enabled o .Quotes then ruleFn .Quotes p3.1 p3.2 else p3
  let p5 := if enabled o .Ellipsis then ruleFn .Ellipsis p4.1 p4.2 else p4
  let p6 := if enabled o .TrailingWhitespace then ruleFn .TrailingWhitespace p5.1 p5.2 else p5
  let p7 := if enabled o .MathSymbols then ruleFn .MathSymbols p6.1 p6.2 else p6
  let p8 := if enabled o .UnicodePunctuation then ruleFn .UnicodePunctuation p7.1 p7.2 else p7
  let p9 := if enabled o .Spacing then ruleFn .Spacing p8.1 p8.2 else p8
  let p10 := if enabled o .AIArtifacts then ruleFn .AIArtifacts p9.1 p9.2 else p9
  let p11 := if enabled o .EncodingIssues then ruleFn .EncodingIssues p10.1 p10.2 else p10
  ({ p11.1 with finalLength := p11.2.length }, p11.2)

/-- The text transformation a single rule performs, seen on its own (each
rule method computes its output text from the input text alone; the
statistics argument only feeds the counters). -/
def ruleText (c : RuleCategory) (t : Text) : Text :=
  (ruleFn c { removedCount := 0, replacedCount := 0, originalLength := 0,
              finalLength := 0 } t).2

/-- Sequential composition of the enabled rules' text transformations. -/
def textPipeline (order : List RuleCategory) (o : Options) (t : Text) : Text :=
  order.foldl (fun acc c => if enabled o c then ruleText c acc else acc) t

/-- The guard result: `{ cleanedText: '', stats: all zeroes }`. -/
def emptyResult : CleaningResult :=
  { cleanedText := [],
    stats := { removedCount := 0, replacedCount := 0, originalLength := 0,
               finalLength := 0 } }

/-- Entry point `cleanText(text, options)`: returns the updated instance statistics and
the result object (whose `stats` is a spread copy of the instance record). -/
def cleanText (v : JsValue) (o : Options) (st : Stats) : Stats × CleaningResult :=
  if isFalsy v || !(isString v) then
    (st, emptyResult)
  else
    match v with
    | .str text =>
      let p := cleanTextStr text o
      (p.1, { cleanedText := p.2, stats := p.1 })
    | _ => (st, emptyResult)

namespace TextCleaner

/-- The hidden-character class of the preview regex. -/
def hiddenClass (c : Char) : Bool :=
  c == '​' || c == '‌' || c == '‍' || c == '⁠' ||
  c == '﻿' || c == '‎' || c == '‏' || c == '‪' ||
  c == '‫' || c == '‬' || c == '‭' || c == '‮' ||
  c == '؜' || c == '᠎' || c == '͏'

def dashClass (c : Char) : Bool :=
  c == '—' || c == '–' || c == '−'

def quoteClass (c : Char) : Bool :=
  c == '‘' || c == '’' || c == '“' || c == '”' ||
  c == '„' || c == '‚'

def mathClass (c : Char) : Bool :=
  c == '×' || c == '÷' || c == '≤' || c == '≥' ||
  c == '≠' || c == '±' || c == '∞' || c == '°' ||
  c == '′' || c == '″' || c == '‰' || c == '∑' ||
  c == '∏' || c == '√' || c == '∆' || c == 'π' ||
  c == 'µ'

def punctClass (c : Char) : Bool :=
  c == '‚' || c == '„' || c == '‹' || c == '›' ||
  c == '«' || c == '»' || c == '¡' || c == '¿' ||
  c == '‾' || c == '⁄' || c == '∕' || c == '⧸' ||
  c == '⧹' || c == '＼' || c == '／'

def spaceClass (c : Char) : Bool :=
  (decide (' ' ≤ c) && decide (c ≤ ' ')) || c == '　'

def artifactClass (c : Char) : Bool :=
  c == '­' || c == '�' || decide (c.toNat ≤ 0x8) ||
  (decide (0xB ≤ c.toNat) && decide (c.toNat ≤ 0xC)) ||
  (decide (0xE ≤ c.toNat) && decide (c.toNat ≤ 0x1F)) || c == '\u007F' ||
  (decide (0x80 ≤ c.toNat) && decide (c.toNat ≤ 0x9F))

/-- Does a multiline `$` anchor match at the front of this suffix, i.e. at
the end of the string or immediately before a line feed? -/
def isLineEnd : Text → Bool
  | [] => true
  | c :: _ => c == '\n'

/-- Greedy backtracking for `/\s+$/`: the largest `j ≤ maxj`, `j ≥ 1`, such
that after consuming `j` whitespace characters the `$` anchor matches. -/
def findWsBreak (s : Text) : Nat → Option Nat
  | 0 => none
  | j + 1 => if isLineEnd (s.drop (j + 1)) then some (j + 1) else findWsBreak s j

/-- Trailing-run match count, `(text.match(/\s+$/gm) || []).length`: scan for the leftmost whitespace
run, greedily take the longest prefix of it that ends at a line end; if none
of its prefixes does, skip the run. -/
def countTrailingWsRuns : Text → Nat
  | [] => 0
  | c :: cs =>
    if isJsWhitespace c then
      let run := (c :: cs).takeWhile isJsWhitespace
      match findWsBreak (c :: cs) run.length with
      | some j => 1 + countTrailingWsRuns (cs.drop (j - 1))
      | none => countTrailingWsRuns (cs.drop (run.length - 1))
    else countTrailingWsRuns cs
termination_by s => s.length
decreasing_by
  · simp only [List.length_drop, List.length_cons]; omega
  · simp only [List.length_drop, List.length_cons]; omega
  · simp only [List.length_cons]; omega

/-- Count of maximal runs of three or more line feeds (the `\n{3,}`
alternative of the preview artifact regex); a run is recognised at its final
triple of line feeds. -/
def countNlRuns : Text → Nat
  | c1 :: c2 :: c3 :: c4 :: rest =>
    (if c1 = '\n' ∧ c2 = '\n' ∧ c3 = '\n' ∧ c4 ≠ '\n' then 1 else 0) +
      countNlRuns (c2 :: c3 :: c4 :: rest)
  | [c1, c2, c3] => if c1 = '\n' ∧ c2 = '\n' ∧ c3 = '\n' then 1 else 0
  | _ => 0

/-- Spacing match count, `(text.match(/[ - 　]|  +/g) || []).length`: the class
contains no space, so the alternation's matches are the class occurrences
plus the maximal runs of two or more spaces. -/
def countSpacingIssues (t : Text) : Nat :=
  t.countP spaceClass + countSpaceRuns t

/-- Artifact match count, `(text.match(/[...artifacts...]|\n{3,}/g) || []).length`: the class does
not contain the line feed, so the matches are the class occurrences plus the
maximal runs of three or more line feeds. -/
def countArtifactIssues (t : Text) : Nat :=
  t.countP artifactClass + countNlRuns t

/-- One alternative of the preview encoding regex, as a sequence of
character predicates (a literal character or a character class). -/
def matchesFront : List (Char → Bool) → Text → Bool
  | [], _ => true
  | _ :: _, [] => false
  | p :: ps, c :: cs => p c && matchesFront ps cs

/-- First alternative (in regex order) matching at this position, with its
length. -/
def firstAltLen : List (List (Char → Bool)) → Text → Option Nat
  | [], _ => none
  | alt :: alts, s =>
    if matchesFront alt s then some alt.length else firstAltLen alts s

/-- The alternatives of `/â€™|â€œ|â€|â€"|â€"|â€¦|Â |Ã[¡éíóúñ]|â„¢|Â[©®]/g`,
with the file's exact code points (the dash rows read `â€` then an ASCII
quote, and `Â ` is U+00C2 then an ASCII space). -/
def encodingAlts : List (List (Char → Bool)) :=
  [[(· == 'â'), (· == '€'), (· == '™')],
   [(· == 'â'), (· == '€'), (· == 'œ')],
   [(· == 'â'), (· == '€')],
   [(· == 'â'), (· == '€'), (· == '"')],
   [(· == 'â'), (· == '€'), (· == '"')],
   [(· == 'â'), (· == '€'), (· == '¦')],
   [(· == 'Â'), (· == ' ')],
   [(· == 'Ã'), fun c => c == '¡' || c == 'é' || c == 'í' ||
      c == 'ó' || c == 'ú' || c == 'ñ'],
   [(· == 'â'), (· == '„'), (· == '¢')],
   [(· == 'Â'), fun c => c == '©' || c == '®']]

/-- Leftmost scan of an alternation of fixed-length alternatives: at each
position the first matching alternative wins and the scan resumes after it;
otherwise the scan advances one character. -/
def countAltMatches (alts : List (List (Char → Bool))) : Text → Nat
  | [] => 0
  | c :: cs =>
    match firstAltLen alts (c :: cs) with
    | some n => 1 + countAltMatches alts (cs.drop (n - 1))
    | none => countAltMatches alts cs
termination_by s => s.length
decreasing_by
  · simp only [List.length_drop, List.length_cons]; omega
  · simp only [List.length_cons]; omega

/-- Preview entry point `previewChanges(text, options)`: builds the issue list from read-only
matches against the original text; the statistics record is not touched. -/
def previewChanges (st : Stats) (t : Text) (o : Options) : Stats × List String :=
  let issues : List String := []
  let issues := if o.removeHiddenChars then
      (let m := t.countP hiddenClass
       if 0 < m then issues ++ [toString m ++ " hidden character(s) found"]
       else issues)
    else issues
  let issues := if o.convertNonBreaking then
      (let m := countOccs [' '] t
       if 0 < m then issues ++ [toString m ++ " non-breaking space(s) found"]
       else issues)
    else issues
  let issues := if o.normalizeDashes then
      (let m := t.countP dashClass
       if 0 < m then issues ++ [toString m ++ " dash(es) to normalize found"]
       else issues)
    else issues
  let issues := if o.normalizeQuotes then
      (let m := t.countP quoteClass
       if 0 < m then issues ++ [toString m ++ " smart quote(s) found"]
       else issues)
    else issues
  let issues := if o.convertEllipsis then
      (let m := countOccs ['…'] t
       if 0 < m then issues ++ [toString m ++ " ellipsis character(s) found"]
       else issues)
    else issues
  let issues := if o.removeTrailing then
      (let m := countTrailingWsRuns t
       if 0 < m then
         issues ++ [toString m ++ " line(s) with trailing whitespace found"]
       else issues)
    else issues
  let issues := if o.normalizeMathSymbols then
      (let m := t.countP mathClass
       if 0 < m then issues ++ [toString m ++ " mathematical symbol(s) found"]
       else issues)
    else issues
  let issues := if o.fixUnicodePunctuation then
      (let m := t.countP punctClass
       if 0 < m then
         issues ++ [toString m ++ " Unicode punctuation mark(s) found"]
       else issues)
    else issues
  let issues := if o.normalizeSpacing then
      (let m := countSpacingIssues t
       if 0 < m then issues ++ [toString m ++ " spacing issue(s) found"]
       else issues)
    else issues
  let issues := if o.removeAIArtifacts then
      (let m := countArtifactIssues t
       if 0 < m then issues ++ [toString m ++ " AI artifact(s) found"]
       else issues)
    else issues
  let issues := if o.fixEncodingIssues then
      (let m := countAltMatches encodingAlts t
       if 0 < m then issues ++ [toString m ++ " encoding issue(s) found"]
       else issues)
    else issues
  (st, issues)

end TextCleaner

/-!
Heap model for the snapshot claim: statistics records live in cells of a
small object heap, the `TextCleaner` instance holds the address of its
`this.stats` record, and `{ ...this.stats }` in `cleanText` allocates a fresh
cell holding a copy.
-/

structure Heap where
  cells : List Stats
deriving DecidableEq

def readCell (h : Heap) (r : Nat) : Stats :=
  h.cells.getD r
    { removedCount := 0, replacedCount := 0, originalLength := 0,
      finalLength := 0 }

def writeCell (h : Heap) (r : Nat) (s : Stats) : Heap :=
  ⟨h.cells.set r s⟩

def allocCell (h : Heap) (s : Stats) : Heap × Nat :=
  (⟨h.cells ++ [s]⟩, h.cells.length)

/-- A `cleanText` result at heap level: its `stats` field is a reference to
the freshly allocated spread copy. -/
structure ResultRef where
  cleanedText : Text
  statsRef : Nat
deriving DecidableEq

/-- Heap-level `cleanText` on the instance whose statistics record lives at `inst`: on
the guard path the result carries a fresh zero-valued object and the
instance cell is untouched; otherwise the instance cell ends up holding the
final statistics and the result references a fresh copy of them. -/
def hCleanText (h : Heap) (inst : Nat) (v : JsValue) (o : Options) :
    Heap × ResultRef :=
  if isFalsy v || !(isString v) then
    let alloc := allocCell h
      { removedCount := 0, replacedCount := 0, originalLength := 0,
        finalLength := 0 }
    (alloc.1, { cleanedText := [], statsRef := alloc.2 })
  else
    match v with
    | .str text =>
      let p := cleanTextStr text o
      let h1 := writeCell h inst p.1
      let alloc := allocCell h1 p.1
      (alloc.1, { cleanedText := p.2, statsRef := alloc.2 })
    | _ =>
      let alloc := allocCell h
        { removedCount := 0, replacedCount := 0, originalLength := 0,
          finalLength := 0 }
      (alloc.1, { cleanedText := [], statsRef := alloc.2 })

/-- A subsequent operation on the same instance: another `cleanText` call, a
bare rule-method call, or `resetStats`. -/
inductive Method where
  | cleanCall (v : JsValue) (o : Options)
  | reset
  | rule (c : RuleCategory) (t : Text)

/-- The heap effect of running a method on the instance at `inst`. -/
def runMethod (h : Heap) (inst : Nat) : Method → Heap
  | .cleanCall v o => (hCleanText h inst v o).1
  | .reset => writeCell h inst
      { removedCount := 0, replacedCount := 0, originalLength := 0,
        finalLength := 0 }
  | .rule c t => writeCell h inst (ruleFn c (readCell h inst) t).1

theorem replaceAllGo_fuel (p r : Text) :
    ∀ (f1 f2 : Nat) (s : Text), s.length ≤ f1 → s.length ≤ f2 →
      replaceAllGo p r f1 s = replaceAllGo p r f2 s := by
  intro f1
  induction f1 with
  | zero =>
    intro f2 s h1 _
    have : s = [] := List.length_eq_zero.mp (Nat.le_zero.mp h1)
    subst this
    cases f2 <;> rfl
  | succ f ih =>
    intro f2 s h1 h2
    cases s with
    | nil => cases f2 <;> rfl
    | cons c cs =>
      cases f2 with
      | zero => simp at h2
      | succ g =>
        rw [replaceAllGo, replaceAllGo]
        simp only [List.length_cons] at h1 h2
        by_cases hc : (startsWith p (c :: cs) && !p.isEmpty) = true
        · rw [if_pos hc, if_pos hc]
          have hd : (cs.drop (p.length - 1)).length ≤ cs.length := by
            simp only [List.length_drop]; omega
          rw [ih g _ (by omega) (by omega)]
        · rw [if_neg hc, if_neg hc]
          rw [ih g cs (by omega) (by omega)]

theorem countOccsGo_fuel (p : Text) :
    ∀ (f1 f2 : Nat) (s : Text), s.length ≤ f1 → s.length ≤ f2 →
      countOccsGo p f1 s = countOccsGo p f2 s := by
  intro f1
  induction f1 with
  | zero =>
    intro f2 s h1 _
    have : s = [] := List.length_eq_zero.mp (Nat.le_zero.mp h1)
    subst this
    cases f2 <;> rfl
  | succ f ih =>
    intro f2 s h1 h2
    cases s with
    | nil => cases f2 <;> rfl
    | cons c cs =>
      cases f2 with
      | zero => simp at h2
      | succ g =>
        rw [countOccsGo, countOccsGo]
        simp only [List.length_cons] at h1 h2
        by_cases hc : (startsWith p (c :: cs) && !p.isEmpty) = true
        · rw [if_pos hc, if_pos hc]
          have hd : (cs.drop (p.length - 1)).length ≤ cs.length := by
            simp only [List.length_drop]; omega
          rw [ih g _ (by omega) (by omega)]
        · rw [if_neg hc, if_neg hc]
          rw [ih g cs (by omega) (by omega)]

/-- The intended recursion equation of `replaceAll` on a nonempty text. -/
theorem replaceAll_cons (p r : Text) (c : Char) (cs : Text) :
    replaceAll p r (c :: cs) =
      if startsWith p (c :: cs) && !p.isEmpty then
        r ++ replaceAll p r (cs.drop (p.length - 1))
      else
        c :: replaceAll p r cs := by
  show replaceAllGo p r (cs.length + 1) (c :: cs) = _
  rw [replaceAllGo]
  by_cases hc : (startsWith p (c :: cs) && !p.isEmpty) = true
  · rw [if_pos hc, if_pos hc]
    unfold replaceAll
    rw [replaceAllGo_fuel p r cs.length (cs.drop (p.length - 1)).length _
      (by simp only [List.length_drop]; omega) (Nat.le_refl _)]
  · rw [if_neg hc, if_neg hc]
    rfl

/-- The intended recursion equation of `countOccs` on a nonempty text. -/
theorem countOccs_cons (p : Text) (c : Char) (cs : Text) :
    countOccs p (c :: cs) =
      if startsWith p (c :: cs) && !p.isEmpty then
        1 + countOccs p (cs.drop (p.length - 1))
      else
        countOccs p cs := by
  show countOccsGo p (cs.length + 1) (c :: cs) = _
  rw [countOccsGo]
  by_cases hc : (startsWith p (c :: cs) && !p.isEmpty) = true
  · rw [if_pos hc, if_pos hc]
    unfold countOccs
    rw [countOccsGo_fuel p cs.length (cs.drop (p.length - 1)).length _
      (by simp only [List.length_drop]; omega) (Nat.le_refl _)]
  · rw [if_neg hc, if_neg hc]
    rfl

theorem startsWith_singleton (a c : Char) (cs : Text) :
    startsWith [a] (c :: cs) = (a == c) := by
  simp [startsWith]

theorem replaceAll_nil (p r : Text) : replaceAll p r [] = [] := rfl

theorem countOccs_nil (p : Text) : countOccs p [] = 0 := rfl

theorem replaceAll_singleton_cons (a : Char) (r : Text) (c : Char) (cs : Text) :
    replaceAll [a] r (c :: cs) =
      if a = c then r ++ replaceAll [a] r cs else c :: replaceAll [a] r cs := by
  rw [replaceAll_cons]
  simp [startsWith_singleton, beq_iff_eq]

theorem countOccs_singleton_cons (a : Char) (c : Char) (cs : Text) :
    countOccs [a] (c :: cs) =
      if a = c then 1 + countOccs [a] cs else countOccs [a] cs := by
  rw [countOccs_cons]
  simp [startsWith_singleton, beq_iff_eq]

theorem replaceAll_singleton (a : Char) (r : Text) (s : Text) :
    replaceAll [a] r s = charwise (fun c => if a = c then r else [c]) s := by
  induction s with
  | nil => simp [replaceAll_nil, charwise]
  | cons c cs ih =>
    rw [replaceAll_singleton_cons, charwise, ih]
    by_cases h : a = c <;> simp [h]

theorem mem_charwise {x : Char} {f : Char → Text} {s : Text} :
    x ∈ charwise f s ↔ ∃ c ∈ s, x ∈ f c := by
  induction s with
  | nil => simp [charwise]
  | cons c cs ih => simp [charwise, ih]

theorem charwise_id {f : Char → Text} {s : Text} (h : ∀ c ∈ s, f c = [c]) :
    charwise f s = s := by
  induction s with
  | nil => rfl
  | cons c cs ih =>
    rw [charwise, h c (List.mem_cons_self c cs), ih fun d hd => h d (List.mem_cons_of_mem c hd)]
    rfl

theorem replaceAll_singleton_of_not_mem {a : Char} {r s : Text} (h : a ∉ s) :
    replaceAll [a] r s = s := by
  rw [replaceAll_singleton]
  exact charwise_id fun c hc => by
    have : a ≠ c := fun hac => h (hac ▸ hc)
    simp [this]

theorem mem_replaceAll_singleton {x a : Char} {r s : Text}
    (h : x ∈ replaceAll [a] r s) : x ∈ r ∨ x ∈ s := by
  rw [replaceAll_singleton] at h
  rcases mem_charwise.mp h with ⟨c, hc, hx⟩
  by_cases hac : a = c
  · simp [hac] at hx
    exact Or.inl hx
  · simp [hac] at hx
    exact Or.inr (hx ▸ hc)

theorem not_mem_replaceAll_singleton {a : Char} {r : Text} (h : a ∉ r) (s : Text) :
    a ∉ replaceAll [a] r s := by
  induction s with
  | nil => simp [replaceAll_nil]
  | cons c cs ih =>
    rw [replaceAll_singleton_cons]
    by_cases hac : a = c
    · subst hac
      intro hmem
      rw [if_pos rfl] at hmem
      rcases List.mem_append.mp hmem with hr | hrec
      · exact h hr
      · exact ih hrec
    · simp only [if_neg hac, List.mem_cons]
      rintro (heq | hrec)
      · exact hac heq
      · exact ih hrec

theorem countOccs_singleton (a : Char) (s : Text) :
    countOccs [a] s = s.count a := by
  induction s with
  | nil => simp [countOccs_nil]
  | cons c cs ih =>
    rw [countOccs_singleton_cons, ih, List.count_cons]
    by_cases h : a = c
    · simp [h, Nat.add_comm]
    · have : ¬(c = a) := fun hh => h hh.symm
      simp [h, this]

theorem length_replaceAll_single_char (a b : Char) (s : Text) :
    (replaceAll [a] [b] s).length = s.length := by
  induction s with
  | nil => simp [replaceAll_nil]
  | cons c cs ih =>
    rw [replaceAll_singleton_cons]
    by_cases h : a = c
    · subst h
      simp [ih]
    · simp [h, ih]

theorem count_replaceAll_single_char (a b : Char) (hab : a ≠ b) (s : Text) :
    (replaceAll [a] [b] s).count b = s.count b + s.count a := by
  induction s with
  | nil => simp [replaceAll_nil]
  | cons c cs ih =>
    rw [replaceAll_singleton_cons]
    by_cases h : a = c
    · subst h
      simp [List.count_cons, ih, hab, Ne.symm hab]
      omega
    · have hca : ¬(c = a) := fun hh => h hh.symm
      simp [List.count_cons, ih, h, hca]
      by_cases hcb : c = b <;> simp [hcb] <;> omega

theorem chainRun_snd (mode : CountMode) (table : RTable) (t : Text) :
    (chainRun mode table t).2 = chainText table t := by
  suffices h : ∀ n, (table.foldl (chainStep mode) (n, t)).2 = chainText table t by
    exact h 0
  unfold chainText
  induction table generalizing t with
  | nil => intro n; rfl
  | cons e es ih =>
    intro n
    simp only [List.foldl_cons, chainStep]
    exact ih _ _

theorem chainText_nil (table : RTable) : chainText table [] = [] := by
  unfold chainText
  induction table with
  | nil => rfl
  | cons e es ih => simpa [replaceAll_nil] using ih

theorem mem_chainText {x : Char} {table : RTable} :
    ∀ {t : Text}, x ∈ chainText table t → x ∈ t ∨ ∃ e ∈ table, x ∈ e.2 := by
  induction table with
  | nil => intro t h; exact Or.inl h
  | cons e es ih =>
    intro t h
    rcases ih h with h' | ⟨e', he', hx⟩
    · rcases mem_replaceAll_singleton h' with hr | ht
      · exact Or.inr ⟨e, List.mem_cons_self _ _, hr⟩
      · exact Or.inl ht
    · exact Or.inr ⟨e', List.mem_cons_of_mem _ he', hx⟩

theorem not_mem_chainText_of_not_mem {a : Char} {table : RTable}
    (hrep : ∀ e ∈ table, a ∉ e.2) : ∀ {t : Text}, a ∉ t → a ∉ chainText table t := by
  intro t ht h
  rcases mem_chainText h with h' | ⟨e, he, hx⟩
  · exact ht h'
  · exact hrep e he hx

theorem not_mem_chainText_pat {a : Char} {table : RTable}
    (hpat : a ∈ table.map Prod.fst) (hrep : ∀ e ∈ table, a ∉ e.2) :
    ∀ t : Text, a ∉ chainText table t := by
  induction table with
  | nil => simp at hpat
  | cons e es ih =>
    intro t
    rcases List.mem_cons.mp hpat with hfst | hrest
    · have h1 : a ∉ replaceAll [e.1] e.2 t := by
        rw [← hfst]
        exact not_mem_replaceAll_singleton (hrep e (List.mem_cons_self _ _)) t
      exact not_mem_chainText_of_not_mem
        (fun e' he' => hrep e' (List.mem_cons_of_mem _ he')) h1
    · exact ih hrest (fun e' he' => hrep e' (List.mem_cons_of_mem _ he')) _

theorem chainText_of_pats_not_mem {table : RTable} {t : Text}
    (h : ∀ e ∈ table, e.1 ∉ t) : chainText table t = t := by
  induction table with
  | nil => rfl
  | cons e es ih =>
    unfold chainText
    simp only [List.foldl_cons]
    rw [replaceAll_singleton_of_not_mem (h e (List.mem_cons_self _ _))]
    exact ih fun e' he' => h e' (List.mem_cons_of_mem _ he')

/-- A single-character table whose pattern characters appear in no replacement
string rewrites to a fixed point: one pass eliminates every pattern character
and no later entry can reintroduce one. -/
theorem chainText_idem {table : RTable}
    (hsep : ∀ e ∈ table, ∀ e' ∈ table, e.1 ∉ e'.2) (t : Text) :
    chainText table (chainText table t) = chainText table t := by
  refine chainText_of_pats_not_mem fun e he => ?_
  exact not_mem_chainText_pat (List.mem_map_of_mem Prod.fst he) (hsep e he) t

theorem occursIn_cons_false {p : Text} {c : Char} {cs : Text}
    (h1 : startsWith p (c :: cs) = false) (h2 : occursIn p cs = false) :
    occursIn p (c :: cs) = false := by
  rw [occursIn, h1, h2]
  rfl

theorem collapseSpaces_cons_of_ne (c : Char) (hc : c ≠ ' ') (cs : Text) :
    collapseSpaces (c :: cs) = c :: collapseSpaces cs := by
  match cs with
  | [] => simp [collapseSpaces]
  | c2 :: rest =>
    rw [collapseSpaces, if_neg (fun hand => hc hand.1)]

theorem collapseSpaces_no_double (t : Text) :
    occursIn [' ', ' '] (collapseSpaces t) = false := by
  induction t using collapseSpaces.induct with
  | case1 => simp [collapseSpaces, occursIn]
  | case2 c => simp [collapseSpaces, occursIn, startsWith]
  | case3 c1 c2 rest h ih =>
    rw [collapseSpaces, if_pos h]
    exact ih
  | case4 c1 c2 rest h ih =>
    rw [collapseSpaces, if_neg h]
    refine occursIn_cons_false ?_ ih
    by_cases h1 : c1 = ' '
    · have h2 : c2 ≠ ' ' := fun h2 => h ⟨h1, h2⟩
      rw [collapseSpaces_cons_of_ne c2 h2 rest]
      simp [startsWith, beq_iff_eq, Ne.symm h2]
    · cases hX : collapseSpaces (c2 :: rest) with
      | nil => simp [startsWith]
      | cons y ys => simp [startsWith, beq_iff_eq, Ne.symm h1]

theorem collapseSpaces_of_no_double {t : Text} (h : occursIn [' ', ' '] t = false) :
    collapseSpaces t = t := by
  induction t using collapseSpaces.induct with
  | case1 => simp [collapseSpaces]
  | case2 c => simp [collapseSpaces]
  | case3 c1 c2 rest hc ih =>
    exfalso
    rw [hc.1, hc.2] at h
    simp [occursIn, startsWith] at h
  | case4 c1 c2 rest hc ih =>
    rw [collapseSpaces, if_neg hc]
    have htail : occursIn [' ', ' '] (c2 :: rest) = false := by
      rw [occursIn, Bool.or_eq_false_iff] at h
      exact h.2
    rw [ih htail]

theorem collapseSpaces_idem (t : Text) :
    collapseSpaces (collapseSpaces t) = collapseSpaces t :=
  collapseSpaces_of_no_double (collapseSpaces_no_double t)

theorem mem_collapseSpaces {x : Char} :
    ∀ {t : Text}, x ∈ collapseSpaces t → x ∈ t := by
  intro t
  induction t using collapseSpaces.induct with
  | case1 => intro h; simp [collapseSpaces] at h
  | case2 c => intro h; simpa [collapseSpaces] using h
  | case3 c1 c2 rest hc ih =>
    rw [collapseSpaces, if_pos hc]
    intro h
    exact List.mem_cons_of_mem _ (ih h)
  | case4 c1 c2 rest hc ih =>
    rw [collapseSpaces, if_neg hc]
    intro h
    rcases List.mem_cons.mp h with h | h
    · exact h ▸ List.mem_cons_self _ _
    · exact List.mem_cons_of_mem _ (ih h)

theorem collapseNl_cons_of_ne (c : Char) (hc : c ≠ '\n') (cs : Text) :
    collapseNl (c :: cs) = c :: collapseNl cs := by
  match cs with
  | [] => simp [collapseNl]
  | [c2] => simp [collapseNl]
  | c2 :: c3 :: rest =>
    rw [collapseNl, if_neg (fun hand => hc hand.1)]

theorem collapseNl_cons_cons_ne {d2 : Char} (h2 : d2 ≠ '\n') (d1 : Char) (cs : Text) :
    ∃ tl, collapseNl (d1 :: d2 :: cs) = d1 :: d2 :: tl := by
  cases cs with
  | nil => exact ⟨[], by simp [collapseNl]⟩
  | cons d3 rs =>
    exact ⟨_, by rw [collapseNl, if_neg (fun hand => h2 hand.2.1),
      collapseNl_cons_of_ne d2 h2 (d3 :: rs)]⟩

theorem collapseNl_no_triple (t : Text) :
    occursIn ['\n', '\n', '\n'] (collapseNl t) = false := by
  induction t using collapseNl.induct with
  | case1 => simp [collapseNl, occursIn]
  | case2 c => simp [collapseNl, occursIn, startsWith]
  | case3 c1 c2 => simp [collapseNl, occursIn, startsWith]
  | case4 c1 c2 c3 rest h ih =>
    rw [collapseNl, if_pos h]
    exact ih
  | case5 c1 c2 c3 rest h ih =>
    rw [collapseNl, if_neg h]
    refine occursIn_cons_false ?_ ih
    by_cases h1 : c1 = '\n'
    · by_cases h2 : c2 = '\n'
      · have h3 : c3 ≠ '\n' := fun h3 => h ⟨h1, h2, h3⟩
        rcases collapseNl_cons_cons_ne h3 c2 rest with ⟨tl, htl⟩
        rw [htl]
        simp [startsWith, beq_iff_eq, Ne.symm h3]
      · rw [collapseNl_cons_of_ne c2 h2 (c3 :: rest)]
        simp [startsWith, beq_iff_eq, Ne.symm h2]
    · cases hX : collapseNl (c2 :: c3 :: rest) with
      | nil => simp [startsWith]
      | cons y ys => simp [startsWith, beq_iff_eq, Ne.symm h1]

theorem collapseNl_of_no_triple {t : Text} (h : occursIn ['\n', '\n', '\n'] t = false) :
    collapseNl t = t := by
  induction t using collapseNl.induct with
  | case1 => simp [collapseNl]
  | case2 c => simp [collapseNl]
  | case3 c1 c2 => simp [collapseNl]
  | case4 c1 c2 c3 rest hc ih =>
    exfalso
    obtain ⟨h1, h2, h3⟩ := hc
    subst h1; subst h2; subst h3
    simp [occursIn, startsWith] at h
  | case5 c1 c2 c3 rest hc ih =>
    rw [collapseNl, if_neg hc]
    have htail : occursIn ['\n', '\n', '\n'] (c2 :: c3 :: rest) = false := by
      rw [occursIn, Bool.or_eq_false_iff] at h
      exact h.2
    rw [ih htail]

theorem collapseNl_idem (t : Text) :
    collapseNl (collapseNl t) = collapseNl t :=
  collapseNl_of_no_triple (collapseNl_no_triple t)

theorem mem_collapseNl {x : Char} :
    ∀ {t : Text}, x ∈ collapseNl t → x ∈ t := by
  intro t
  induction t using collapseNl.induct with
  | case1 => intro h; simp [collapseNl] at h
  | case2 c => intro h; simpa [collapseNl] using h
  | case3 c1 c2 => intro h; simpa [collapseNl] using h
  | case4 c1 c2 c3 rest hc ih =>
    rw [collapseNl, if_pos hc]
    intro h
    exact List.mem_cons_of_mem _ (ih h)
  | case5 c1 c2 c3 rest hc ih =>
    rw [collapseNl, if_neg hc]
    intro h
    rcases List.mem_cons.mp h with h | h
    · exact h ▸ List.mem_cons_self _ _
    · exact List.mem_cons_of_mem _ (ih h)

theorem ruleFn_snd (c : RuleCategory) (st : Stats) (t : Text) :
    (ruleFn c st t).2 = ruleText c t := by
  cases c <;>
    simp [ruleText, ruleFn, TextCleaner.removeHiddenCharacters,
      TextCleaner.convertNonBreakingSpaces, TextCleaner.normalizeDashes,
      TextCleaner.normalizeQuotes, TextCleaner.convertEllipsis,
      TextCleaner.removeTrailingWhitespace, TextCleaner.normalizeMathSymbols,
      TextCleaner.fixUnicodePunctuation, TextCleaner.normalizeSpacing,
      TextCleaner.removeAIArtifacts, TextCleaner.fixEncodingIssues]

theorem ruleFn_originalLength (c : RuleCategory) (st : Stats) (t : Text) :
    (ruleFn c st t).1.originalLength = st.originalLength := by
  cases c <;>
    simp [ruleFn, TextCleaner.removeHiddenCharacters,
      TextCleaner.convertNonBreakingSpaces, TextCleaner.normalizeDashes,
      TextCleaner.normalizeQuotes, TextCleaner.convertEllipsis,
      TextCleaner.removeTrailingWhitespace, TextCleaner.normalizeMathSymbols,
      TextCleaner.fixUnicodePunctuation, TextCleaner.normalizeSpacing,
      TextCleaner.removeAIArtifacts, TextCleaner.fixEncodingIssues]

theorem ruleText_nil (c : RuleCategory) : ruleText c [] = [] := by
  cases c <;> decide

theorem runPipeline_snd (order : List RuleCategory) (o : Options) :
    ∀ (st : Stats) (t : Text), (runPipeline order o st t).2 = textPipeline order o t := by
  induction order with
  | nil => intro st t; rfl
  | cons c cs ih =>
    intro st t
    simp only [runPipeline, textPipeline, List.foldl_cons]
    by_cases h : enabled o c
    · rw [if_pos h, if_pos h, ← ruleFn_snd c st t]
      exact ih (ruleFn c st t).1 (ruleFn c st t).2
    · rw [if_neg h, if_neg h]
      exact ih st t

theorem runPipeline_originalLength (order : List RuleCategory) (o : Options) :
    ∀ (st : Stats) (t : Text),
      (runPipeline order o st t).1.originalLength = st.originalLength := by
  induction order with
  | nil => intro st t; rfl
  | cons c cs ih =>
    intro st t
    simp only [runPipeline, List.foldl_cons]
    by_cases h : enabled o c
    · rw [if_pos h]
      exact (ih (ruleFn c st t).1 (ruleFn c st t).2).trans
        (ruleFn_originalLength c st t)
    · rw [if_neg h]
      exact ih st t

theorem textPipeline_nil (order : List RuleCategory) (o : Options) :
    textPipeline order o [] = [] := by
  induction order with
  | nil => rfl
  | cons c cs ih =>
    simp only [textPipeline, List.foldl_cons]
    by_cases h : enabled o c
    · rw [if_pos h, ruleText_nil]
      exact ih
    · rw [if_neg h]
      exact ih

/-- Bridging lemma: `cleanTextStr` is exactly the pipeline fold in the source order, followed
by recording `finalLength`. -/
theorem cleanTextStr_eq (text : Text) (o : Options) :
    cleanTextStr text o =
      (let q := runPipeline codeOrder o
        { removedCount := 0, replacedCount := 0, originalLength := text.length,
          finalLength := 0 } text
       ({ q.1 with finalLength := q.2.length }, q.2)) := rfl

theorem cleanText_guard_false {s : Text} (hs : s ≠ []) (o : Options) (st : Stats) :
    cleanText (.str s) o st =
      ((cleanTextStr s o).1,
       { cleanedText := (cleanTextStr s o).2, stats := (cleanTextStr s o).1 }) := by
  have hg : (isFalsy (.str s) || !(isString (.str s))) = false := by
    simp [isFalsy, isString, hs]
  rw [cleanText, if_neg (by rw [hg]; exact Bool.false_ne_true)]

/-- Claim C1, counterexample: the spec's canonical order (EncodingIssues
second, TrailingWhitespace last) is not the order `cleanText` applies. On the
input `â„¢` (the mojibake of `™`) with UnicodePunctuation and EncodingIssues
enabled, `cleanText` yields `â"¢` (UnicodePunctuation consumes the `„` before
EncodingIssues, which runs last, can see the pattern), while composing the
rules in the spec's order yields `™`. -/
theorem c1_counterexample :
    (cleanText (.str ['â', '„', '¢'])
        { fixUnicodePunctuation := true, fixEncodingIssues := true }
        { removedCount := 0, replacedCount := 0, originalLength := 0,
          finalLength := 0 }).2.cleanedText ≠
      textPipeline specOrder
        { fixUnicodePunctuation := true, fixEncodingIssues := true }
        ['â', '„', '¢'] := by
  decide

/-- Claim C1, amended: for every string input and configuration, `cleanText`'s
output text equals the sequential composition of the enabled rule functions in
the order the code applies them: HiddenCharacters, NonBreakingSpace, Dashes,
Quotes, Ellipsis, TrailingWhitespace, MathSymbols, UnicodePunctuation,
Spacing, AIArtifacts, EncodingIssues. -/
theorem c1_canonical_order (s : Text) (o : Options) (st0 : Stats) :
    (cleanText (.str s) o st0).2.cleanedText = textPipeline codeOrder o s := by
  by_cases hs : s = []
  · subst hs
    rw [textPipeline_nil]
    rfl
  · rw [cleanText_guard_false hs o st0]
    show (cleanTextStr s o).2 = _
    rw [cleanTextStr_eq]
    exact runPipeline_snd codeOrder o _ s

/-- Claim C2: on every non-string input, `cleanText` returns a result with
empty cleaned text and all four statistics fields zero (and, being a total
function, cannot raise). -/
theorem c2_nonstring_input (v : JsValue) (o : Options) (st : Stats)
    (h : isString v = false) :
    (cleanText v o st).2.cleanedText = [] ∧
    (cleanText v o st).2.stats =
      { removedCount := 0, replacedCount := 0, originalLength := 0,
        finalLength := 0 } := by
  cases v with
  | str s => simp [isString] at h
  | null => exact ⟨rfl, rfl⟩
  | undefined => exact ⟨rfl, rfl⟩
  | bool b =>
    constructor <;> simp [cleanText, isString, emptyResult]
  | num n =>
    constructor <;> simp [cleanText, isString, emptyResult]

theorem c2_nonstring_input_witness :
    isString JsValue.null = false ∧
    ((cleanText JsValue.null {} (⟨1, 2, 3, 4⟩ : Stats)).2.cleanedText = [] ∧
     (cleanText JsValue.null {} (⟨1, 2, 3, 4⟩ : Stats)).2.stats =
      { removedCount := 0, replacedCount := 0, originalLength := 0,
        finalLength := 0 }) :=
  ⟨rfl, c2_nonstring_input JsValue.null {} _ rfl⟩

/-- Claim C3: for every string input and configuration, the returned
statistics satisfy `originalLength` = length of the input and `finalLength` =
length of the returned cleaned text. -/
theorem c3_length_invariant (s : Text) (o : Options) (st0 : Stats) :
    (cleanText (.str s) o st0).2.stats.originalLength = s.length ∧
    (cleanText (.str s) o st0).2.stats.finalLength =
      (cleanText (.str s) o st0).2.cleanedText.length := by
  by_cases hs : s = []
  · subst hs
    exact ⟨rfl, rfl⟩
  · rw [cleanText_guard_false hs o st0]
    constructor
    · show (cleanTextStr s o).1.originalLength = s.length
      rw [cleanTextStr_eq]
      exact runPipeline_originalLength codeOrder o _ s
    · rfl

/-- Claim C4, counterexample: on the input `“hello’s”` with only Quotes
enabled, `cleanText` does return the text `"hello's"`, but `replacedCount` is
3 (three smart quotes are replaced), not 2 as the claim states. -/
theorem c4_counterexample :
    ¬((cleanText (.str ['“', 'h', 'e', 'l', 'l', 'o', '’', 's', '”'])
          { normalizeQuotes := true }
          { removedCount := 0, replacedCount := 0, originalLength := 0,
            finalLength := 0 }).2.cleanedText =
        ['"', 'h', 'e', 'l', 'l', 'o', '\'', 's', '"'] ∧
      (cleanText (.str ['“', 'h', 'e', 'l', 'l', 'o', '’', 's', '”'])
          { normalizeQuotes := true }
          { removedCount := 0, replacedCount := 0, originalLength := 0,
            finalLength := 0 }).2.stats.replacedCount = 2) := by
  decide

/-- Claim C4, amended: on the input `“hello’s”` with only Quotes enabled,
`cleanText` returns the text `"hello's"` (straight double quotes around it)
and `replacedCount = 3`, whatever the prior instance statistics were. -/
theorem c4_quote_example (st0 : Stats) :
    (cleanText (.str ['“', 'h', 'e', 'l', 'l', 'o', '’', 's', '”'])
        { normalizeQuotes := true } st0).2.cleanedText =
      ['"', 'h', 'e', 'l', 'l', 'o', '\'', 's', '"'] ∧
    (cleanText (.str ['“', 'h', 'e', 'l', 'l', 'o', '’', 's', '”'])
        { normalizeQuotes := true } st0).2.stats.replacedCount = 3 :=
  ⟨rfl, rfl⟩

/-- Claim C5: `convertNonBreakingSpaces` increases `replacedCount` by exactly
the number of occurrences of U+00A0 in its input; the source's delta-based
formula coincides with the match count. -/
theorem c5_nbsp_count (st : Stats) (t : Text) :
    (TextCleaner.convertNonBreakingSpaces st t).1.replacedCount =
      st.replacedCount + countOccs [' '] t := by
  have h1 := length_replaceAll_single_char ' ' ' ' t
  have h2 := count_replaceAll_single_char ' ' ' ' (by decide) t
  simp only [TextCleaner.convertNonBreakingSpaces]
  congr 1
  rw [countOccs_singleton, countOccs_singleton, countOccs_singleton, h1, h2]
  omega

/-- Claim C7: with every category disabled, `cleanText` is the identity on
the text, both counters are zero, and both lengths equal the input length. -/
theorem c7_empty_config (s : Text) (st0 : Stats) :
    (cleanText (.str s) {} st0).2.cleanedText = s ∧
    (cleanText (.str s) {} st0).2.stats.removedCount = 0 ∧
    (cleanText (.str s) {} st0).2.stats.replacedCount = 0 ∧
    (cleanText (.str s) {} st0).2.stats.originalLength = s.length ∧
    (cleanText (.str s) {} st0).2.stats.finalLength = s.length := by
  by_cases hs : s = []
  · subst hs
    exact ⟨rfl, rfl, rfl, rfl, rfl⟩
  · rw [cleanText_guard_false hs _ st0]
    have hstr : cleanTextStr s {} =
        ({ removedCount := 0, replacedCount := 0, originalLength := s.length,
           finalLength := s.length }, s) := rfl
    rw [hstr]
    exact ⟨rfl, rfl, rfl, rfl, rfl⟩

theorem mem_classChain {x : Char} {classes : List (Char → Bool)} :
    ∀ {t : Text}, x ∈ classChain classes t → x ∈ t := by
  induction classes with
  | nil => intro t h; exact h
  | cons q rest ih =>
    intro t h
    exact List.mem_of_mem_filter (ih h)

theorem not_satisfies_classChain {p : Char → Bool} {classes : List (Char → Bool)}
    (hp : p ∈ classes) :
    ∀ {t : Text} {x : Char}, x ∈ classChain classes t → p x = false := by
  induction classes with
  | nil => simp at hp
  | cons q rest ih =>
    intro t x h
    rcases List.mem_cons.mp hp with hq | hrest
    · subst hq
      have hx : x ∈ t.filter (fun c => !(p c)) := mem_classChain h
      have := List.of_mem_filter hx
      simpa using this
    · exact ih hrest h

theorem classChain_id {classes : List (Char → Bool)} :
    ∀ {t : Text}, (∀ x ∈ t, ∀ p ∈ classes, p x = false) → classChain classes t = t := by
  induction classes with
  | nil => intro t _; rfl
  | cons q rest ih =>
    intro t h
    have hfil : t.filter (fun c => !(q c)) = t := by
      apply List.filter_eq_self.mpr
      intro a ha
      simp [h a ha q (List.mem_cons_self _ _)]
    show classChain rest (t.filter fun c => !(q c)) = t
    rw [hfil]
    exact ih fun x hx p hp => h x hx p (List.mem_cons_of_mem _ hp)

theorem not_mem_splitOnP (x : Char) :
    ∀ (t : Text), ∀ l ∈ t.splitOnP (· == x), x ∉ l := by
  intro t
  induction t with
  | nil =>
    intro l hl
    rw [List.splitOnP_nil] at hl
    rw [List.mem_singleton.mp hl]
    exact List.not_mem_nil x
  | cons c cs ih =>
    intro l hl
    rw [List.splitOnP_cons] at hl
    by_cases hc : (c == x) = true
    · rw [if_pos hc] at hl
      rcases List.mem_cons.mp hl with hnil | hl'
      · rw [hnil]; exact List.not_mem_nil x
      · exact ih l hl'
    · rw [if_neg hc] at hl
      cases hsp : cs.splitOnP (· == x) with
      | nil => exact absurd hsp (List.splitOnP_ne_nil _ cs)
      | cons h0 rest =>
        rw [hsp] at hl
        simp only [List.modifyHead] at hl
        rcases List.mem_cons.mp hl with hhd | hl'
        · rw [hhd]
          intro hx
          rcases List.mem_cons.mp hx with hxc | hxh
          · subst hxc
            exact hc (beq_self_eq_true x)
          · exact ih h0 (hsp ▸ List.mem_cons_self h0 rest) hxh
        · exact ih l (hsp ▸ List.mem_cons_of_mem h0 hl')

theorem not_mem_splitOn (x : Char) (t : Text) : ∀ l ∈ t.splitOn x, x ∉ l :=
  not_mem_splitOnP x t

theorem dropTrailingWs_idem (l : Text) :
    TextCleaner.dropTrailingWs (TextCleaner.dropTrailingWs l) =
      TextCleaner.dropTrailingWs l := by
  unfold TextCleaner.dropTrailingWs
  rw [List.reverse_reverse, List.dropWhile_idempotent]

theorem mem_dropTrailingWs {x : Char} {l : Text}
    (h : x ∈ TextCleaner.dropTrailingWs l) : x ∈ l := by
  unfold TextCleaner.dropTrailingWs at h
  rw [List.mem_reverse] at h
  have := List.dropWhile_subset (l := l.reverse) TextCleaner.isJsWhitespace h
  rwa [List.mem_reverse] at this

/-- Claim C6, counterexample: `fixEncodingIssues` is not idempotent on text.
On `Â Â ␠` (two U+00C2 then a space) one application rewrites the second
`Â ␠` to a space, producing `Â ␠`, and a second application rewrites again,
producing `␠`. -/
theorem c6_counterexample :
    ruleText .EncodingIssues (ruleText .EncodingIssues ['Â', 'Â', ' ']) ≠
      ruleText .EncodingIssues ['Â', 'Â', ' '] := by
  decide

/-- Claim C6, amended: every rule in the catalog except `fixEncodingIssues`
is idempotent on text: applying the single rule twice yields the same text as
applying it once. -/
theorem c6_rule_idempotent (c : RuleCategory)
    (hc : c ≠ RuleCategory.EncodingIssues) (t : Text) :
    ruleText c (ruleText c t) = ruleText c t := by
  cases c with
  | EncodingIssues => exact absurd rfl hc
  | HiddenCharacters =>
    have hrw : ∀ u, ruleText .HiddenCharacters u =
        chainText TextCleaner.hiddenChars u := by
      intro u
      simp [ruleText, ruleFn, TextCleaner.removeHiddenCharacters, chainRun_snd]
    simp only [hrw]
    exact chainText_idem (by decide) t
  | NonBreakingSpace =>
    have hrw : ∀ u, ruleText .NonBreakingSpace u =
        replaceAll ['\u00A0'] [' '] u := by
      intro u
      simp [ruleText, ruleFn, TextCleaner.convertNonBreakingSpaces]
    simp only [hrw]
    exact replaceAll_singleton_of_not_mem
      (not_mem_replaceAll_singleton (by decide) _)
  | Dashes =>
    have hrw : ∀ u, ruleText .Dashes u = chainText TextCleaner.dashFixes u := by
      intro u
      simp [ruleText, ruleFn, TextCleaner.normalizeDashes, chainRun_snd]
    simp only [hrw]
    exact chainText_idem (by decide) t
  | Quotes =>
    have hrw : ∀ u, ruleText .Quotes u = chainText TextCleaner.quoteFixes u := by
      intro u
      simp [ruleText, ruleFn, TextCleaner.normalizeQuotes, chainRun_snd]
    simp only [hrw]
    exact chainText_idem (by decide) t
  | Ellipsis =>
    have hrw : ∀ u, ruleText .Ellipsis u = replaceAll ['…'] "...".toList u := by
      intro u
      simp [ruleText, ruleFn, TextCleaner.convertEllipsis]
    simp only [hrw]
    exact replaceAll_singleton_of_not_mem
      (not_mem_replaceAll_singleton (by decide) _)
  | MathSymbols =>
    have hrw : ∀ u, ruleText .MathSymbols u =
        chainText TextCleaner.mathReplacements u := by
      intro u
      simp [ruleText, ruleFn, TextCleaner.normalizeMathSymbols, chainRun_snd]
    simp only [hrw]
    exact chainText_idem (by decide) t
  | UnicodePunctuation =>
    have hrw : ∀ u, ruleText .UnicodePunctuation u =
        chainText TextCleaner.punctuationFixes u := by
      intro u
      simp [ruleText, ruleFn, TextCleaner.fixUnicodePunctuation, chainRun_snd]
    simp only [hrw]
    exact chainText_idem (by decide) t
  | TrailingWhitespace =>
    have hrw : ∀ u, ruleText .TrailingWhitespace u =
        [('\n' : Char)].intercalate
          ((u.splitOn '\n').map TextCleaner.dropTrailingWs) := by
      intro u
      simp [ruleText, ruleFn, TextCleaner.removeTrailingWhitespace]
    simp only [hrw]
    have hpieces : ∀ l ∈ (t.splitOn '\n').map TextCleaner.dropTrailingWs,
        '\n' ∉ l := by
      intro l hl
      rcases List.mem_map.mp hl with ⟨l0, hl0, hdl⟩
      intro hx
      rw [← hdl] at hx
      exact not_mem_splitOn '\n' t l0 hl0 (mem_dropTrailingWs hx)
    have hne : (t.splitOn '\n').map TextCleaner.dropTrailingWs ≠ [] := by
      intro hmap
      exact List.splitOnP_ne_nil _ t (List.map_eq_nil_iff.mp hmap)
    rw [List.splitOn_intercalate _ '\n' hpieces hne, List.map_map]
    simp [Function.comp_def, dropTrailingWs_idem]
  | Spacing =>
    have hrw : ∀ u, ruleText .Spacing u =
        collapseSpaces (chainText TextCleaner.spaceChars u) := by
      intro u
      simp [ruleText, ruleFn, TextCleaner.normalizeSpacing, chainRun_snd]
    simp only [hrw]
    have hsep : ∀ e ∈ TextCleaner.spaceChars, ∀ e' ∈ TextCleaner.spaceChars,
        e.1 ∉ e'.2 := by decide
    have h1 : chainText TextCleaner.spaceChars
        (collapseSpaces (chainText TextCleaner.spaceChars t)) =
        collapseSpaces (chainText TextCleaner.spaceChars t) := by
      apply chainText_of_pats_not_mem
      intro e he hmem
      exact not_mem_chainText_pat (List.mem_map_of_mem Prod.fst he) (hsep e he) t
        (mem_collapseSpaces hmem)
    rw [h1, collapseSpaces_idem]
  | AIArtifacts =>
    have hrw : ∀ u, ruleText .AIArtifacts u =
        collapseNl (classChain TextCleaner.artifactClasses u) := by
      intro u
      simp [ruleText, ruleFn, TextCleaner.removeAIArtifacts]
    simp only [hrw]
    have h1 : classChain TextCleaner.artifactClasses
        (collapseNl (classChain TextCleaner.artifactClasses t)) =
        collapseNl (classChain TextCleaner.artifactClasses t) := by
      apply classChain_id
      intro x hx p hp
      exact not_satisfies_classChain hp (mem_collapseNl hx)
    rw [h1, collapseNl_idem]

theorem c6_rule_idempotent_witness :
    RuleCategory.Quotes ≠ RuleCategory.EncodingIssues ∧
    ruleText .Quotes (ruleText .Quotes ['“', 'a', '’']) =
      ruleText .Quotes ['“', 'a', '’'] :=
  ⟨by decide, c6_rule_idempotent .Quotes (by decide) ['“', 'a', '’']⟩

theorem startsWith_append_left {p q s : Text}
    (h : startsWith (p ++ q) s = true) : startsWith p s = true := by
  induction p generalizing s with
  | nil => rfl
  | cons a ps ih =>
    cases s with
    | nil => simp [startsWith] at h
    | cons c cs =>
      rw [List.cons_append, startsWith] at h
      rw [startsWith]
      simp only [Bool.and_eq_true] at h
      rw [h.1, ih h.2]
      rfl

theorem occursIn_append_false {p q s : Text} (h : occursIn p s = false) :
    occursIn (p ++ q) s = false := by
  induction s with
  | nil =>
    rw [occursIn] at h ⊢
    cases p with
    | nil => simp at h
    | cons a ps => simp
  | cons c cs ih =>
    rw [occursIn, Bool.or_eq_false_iff] at h
    refine occursIn_cons_false ?_ (ih h.2)
    cases hsw : startsWith (p ++ q) (c :: cs) with
    | false => rfl
    | true =>
      rw [startsWith_append_left hsw] at h
      exact absurd h.1 (by simp)

theorem replaceAll_of_not_occurs {p r : Text} :
    ∀ {s : Text}, occursIn p s = false → replaceAll p r s = s := by
  intro s
  induction s with
  | nil => intro _; rfl
  | cons c cs ih =>
    intro h
    rw [occursIn, Bool.or_eq_false_iff] at h
    rw [replaceAll_cons, if_neg (by simp [h.1]), ih h.2]

theorem countOccs_of_not_occurs {p : Text} :
    ∀ {s : Text}, occursIn p s = false → countOccs p s = 0 := by
  intro s
  induction s with
  | nil => intro _; rfl
  | cons c cs ih =>
    intro h
    rw [occursIn, Bool.or_eq_false_iff] at h
    rw [countOccs_cons, if_neg (by simp [h.1])]
    exact ih h.2

/-- After replacing every occurrence of the two-character pattern `[a, b]` by
a single character distinct from both, no occurrence of `[a, b]` remains: the
two pattern characters differ from the replacement, so no new occurrence can
form across a replacement boundary, and the characters kept verbatim were
exactly those where the scan found no occurrence. -/
theorem occursIn_pair_replaceAll_aux (a b q : Char) (ha : q ≠ a) (hb : q ≠ b) :
    ∀ (n : Nat) (s : Text), s.length ≤ n →
      occursIn [a, b] (replaceAll [a, b] [q] s) = false := by
  intro n
  induction n with
  | zero =>
    intro s hs
    rw [List.length_eq_zero.mp (Nat.le_zero.mp hs)]
    rfl
  | succ m ih =>
    intro s hs
    cases s with
    | nil => rfl
    | cons c cs =>
      simp only [List.length_cons] at hs
      rw [replaceAll_cons]
      by_cases hsw : (startsWith [a, b] (c :: cs) && !([a, b] : Text).isEmpty) = true
      · rw [if_pos hsw]
        simp only [List.isEmpty, Bool.not_false, Bool.and_true] at hsw
        rw [startsWith] at hsw
        simp only [Bool.and_eq_true] at hsw
        obtain ⟨hac, hbcs⟩ := hsw
        cases cs with
        | nil => simp [startsWith] at hbcs
        | cons d ds =>
          rw [startsWith_singleton] at hbcs
          have hbd : b = d := beq_iff_eq.mp hbcs
          show occursIn [a, b] (q :: replaceAll [a, b] [q] ds) = false
          refine occursIn_cons_false ?_
            (ih ds (by simp only [List.length_cons] at hs; omega))
          simp [startsWith, beq_iff_eq, Ne.symm ha]
      · rw [if_neg hsw]
        refine occursIn_cons_false ?_ (ih cs (by omega))
        by_cases hac : a = c
        · subst hac
          cases cs with
          | nil => simp [startsWith, replaceAll_nil]
          | cons d ds =>
            have hd : d ≠ b := by
              intro hdb
              apply hsw
              simp [startsWith, beq_iff_eq, hdb, List.isEmpty]
            rw [replaceAll_cons]
            by_cases hin : (startsWith [a, b] (d :: ds) && !([a, b] : Text).isEmpty) = true
            · rw [if_pos hin]
              simp [startsWith, beq_iff_eq, Ne.symm hb]
            · rw [if_neg hin]
              have hbd : ¬(b = d) := fun h => hd h.symm
              simp [startsWith, beq_iff_eq, hbd]
        · simp [startsWith, beq_iff_eq, hac]

theorem occursIn_pair_replaceAll (a b q : Char) (ha : q ≠ a) (hb : q ≠ b)
    (s : Text) : occursIn [a, b] (replaceAll [a, b] [q] s) = false :=
  occursIn_pair_replaceAll_aux a b q ha hb s.length s (Nat.le_refl _)

theorem strChainStep_id {e : Text × Text} {n : Nat} {t : Text}
    (h : occursIn e.1 t = false) : strChainStep (n, t) e = (n, t) := by
  unfold strChainStep
  rw [countOccs_of_not_occurs h, replaceAll_of_not_occurs h]
  simp

theorem foldl_strChainStep_id {u : Text} (hu : occursIn ['â', '€'] u = false) :
    ∀ (es : List (Text × Text)) (n : Nat),
      (∀ e ∈ es, ∃ w : Text, e.1 = ['â', '€'] ++ w) →
      List.foldl strChainStep (n, u) es = (n, u) := by
  intro es
  induction es with
  | nil => intro n _; rfl
  | cons e rest ih =>
    intro n hext
    rcases hext e (List.mem_cons_self _ _) with ⟨w, hw⟩
    have he : occursIn e.1 u = false := by
      rw [hw]
      exact occursIn_append_false hu
    simp only [List.foldl_cons]
    rw [strChainStep_id he]
    exact ih n fun e' he' => hext e' (List.mem_cons_of_mem _ he')

/-- Claim C9: in `fixEncodingIssues` the em-dash, en-dash and ellipsis rows
never match, because the two-character row `â€ → "` (applied third) has
already replaced every occurrence of the prefix `â€`; the function equals the
one with those rows removed, and the ellipsis mojibake `â€¦` is rewritten to
`"¦`, not to `...`. -/
theorem c9_dead_encoding_entries :
    (∀ (st : Stats) (t : Text),
      TextCleaner.fixEncodingIssues st t = TextCleaner.fixEncodingIssuesTrimmed st t) ∧
    ruleText .EncodingIssues ['â', '€', '¦'] = ['"', '¦'] := by
  constructor
  · intro st t
    unfold TextCleaner.fixEncodingIssues TextCleaner.fixEncodingIssuesTrimmed
    suffices h : strChainRun TextCleaner.encodingFixes t =
        strChainRun TextCleaner.encodingFixesTrimmed t by rw [h]
    have hsplit1 : TextCleaner.encodingFixes =
        TextCleaner.encodingFixes.take 3 ++
          ((TextCleaner.encodingFixes.drop 3).take 3 ++
            TextCleaner.encodingFixes.drop 6) := rfl
    show List.foldl strChainStep (0, t) TextCleaner.encodingFixes =
      List.foldl strChainStep (0, t) TextCleaner.encodingFixesTrimmed
    rw [hsplit1]
    show _ = List.foldl strChainStep (0, t)
      (TextCleaner.encodingFixes.take 3 ++ TextCleaner.encodingFixes.drop 6)
    rw [List.foldl_append, List.foldl_append, List.foldl_append]
    congr 1
    have hP : occursIn ['â', '€']
        (List.foldl strChainStep (0, t) (TextCleaner.encodingFixes.take 3)).2 =
        false := by
      have htake : TextCleaner.encodingFixes.take 3 =
          [(['â', '€', '™'], ['\'']), (['â', '€', 'œ'], ['"']),
           (['â', '€'], ['"'])] := rfl
      rw [htake]
      simp only [List.foldl_cons, List.foldl_nil, strChainStep]
      exact occursIn_pair_replaceAll 'â' '€' '"' (by decide) (by decide) _
    have hdead : ∀ e ∈ (TextCleaner.encodingFixes.drop 3).take 3,
        ∃ w : Text, e.1 = ['â', '€'] ++ w := by
      have hd : (TextCleaner.encodingFixes.drop 3).take 3 =
          [(['â', '€', '"'], ['—']), (['â', '€', '"'], ['–']),
           (['â', '€', '¦'], "...".toList)] := rfl
      rw [hd]
      intro e he
      rcases List.mem_cons.mp he with rfl | he
      · exact ⟨_, rfl⟩
      rcases List.mem_cons.mp he with rfl | he
      · exact ⟨_, rfl⟩
      rcases List.mem_cons.mp he with rfl | he
      · exact ⟨_, rfl⟩
      · exact absurd he (List.not_mem_nil e)
    exact foldl_strChainStep_id hP _ _ hdead
  · decide

/-- Claim C8: `previewChanges` is a pure observer: the instance statistics
come back unchanged, and the issue list depends only on the text and the
options — in particular two calls with the same text and options return the
same issue list whatever the statistics record holds, and nothing is
mutated (the embedding is value-level, so the input text cannot change). -/
theorem c8_preview_pure (st st' : Stats) (t : Text) (o : Options) :
    TextCleaner.previewChanges st t o =
      (st, (TextCleaner.previewChanges st' t o).2) := rfl

theorem readCell_write_ne {h : Heap} {w r : Nat} {s : Stats} (hne : w ≠ r) :
    readCell (writeCell h w s) r = readCell h r := by
  unfold readCell writeCell
  rw [List.getD_eq_getElem?_getD, List.getD_eq_getElem?_getD,
    List.getElem?_set_ne hne]

theorem readCell_append {h : Heap} {r : Nat} {l : List Stats}
    (hr : r < h.cells.length) :
    readCell ⟨h.cells ++ l⟩ r = readCell h r := by
  unfold readCell
  rw [List.getD_eq_getElem?_getD, List.getD_eq_getElem?_getD,
    List.getElem?_append_left hr]

/-- Running any method on the instance at `inst` leaves every other valid
cell unchanged: methods only write the instance cell and allocate. -/
theorem runMethod_frame (h1 : Heap) (inst ref : Nat) (m : Method)
    (hne : inst ≠ ref) (hlt : ref < h1.cells.length) :
    readCell (runMethod h1 inst m) ref = readCell h1 ref := by
  cases m with
  | reset => exact readCell_write_ne hne
  | rule c t => exact readCell_write_ne hne
  | cleanCall v o =>
    show readCell (hCleanText h1 inst v o).1 ref = readCell h1 ref
    unfold hCleanText
    by_cases hg : (isFalsy v || !(isString v)) = true
    · rw [if_pos hg]
      exact readCell_append hlt
    · rw [if_neg hg]
      cases v with
      | str text =>
        have h2 : ref < (writeCell h1 inst (cleanTextStr text o).1).cells.length := by
          simp only [writeCell, List.length_set]
          exact hlt
        calc readCell ⟨(writeCell h1 inst (cleanTextStr text o).1).cells ++
                [(cleanTextStr text o).1]⟩ ref
            = readCell (writeCell h1 inst (cleanTextStr text o).1) ref :=
              readCell_append h2
          _ = readCell h1 ref := readCell_write_ne hne
      | null => simp [isFalsy] at hg
      | undefined => simp [isFalsy] at hg
      | bool b => simp [isString] at hg
      | num n => simp [isString] at hg

/-- Claim C10: the stats record inside a returned cleaning result is a
snapshot independent of the `TextCleaner` instance: after `cleanText`
returns, running any further method on the same instance (another
`cleanText`, a bare rule method, or `resetStats`) leaves the statistics the
result references unchanged. -/
theorem c10_snapshot (h : Heap) (inst : Nat) (v : JsValue) (o : Options)
    (m : Method) (hinst : inst < h.cells.length) :
    readCell (runMethod (hCleanText h inst v o).1 inst m)
        (hCleanText h inst v o).2.statsRef =
      readCell (hCleanText h inst v o).1 (hCleanText h inst v o).2.statsRef := by
  have hkey : (hCleanText h inst v o).2.statsRef = h.cells.length ∧
      (hCleanText h inst v o).1.cells.length = h.cells.length + 1 := by
    unfold hCleanText
    by_cases hg : (isFalsy v || !(isString v)) = true
    · rw [if_pos hg]
      exact ⟨rfl, by simp [allocCell]⟩
    · rw [if_neg hg]
      cases v with
      | str text =>
        constructor
        · show (allocCell (writeCell h inst (cleanTextStr text o).1)
            (cleanTextStr text o).1).2 = h.cells.length
          simp [allocCell, writeCell]
        · simp [allocCell, writeCell]
      | null => simp [isFalsy] at hg
      | undefined => simp [isFalsy] at hg
      | bool b => simp [isString] at hg
      | num n => simp [isString] at hg
  refine runMethod_frame _ inst _ m ?_ ?_
  · rw [hkey.1]
    omega
  · rw [hkey.1, hkey.2]
    omega

theorem c10_snapshot_witness :
    (0 : Nat) < (Heap.mk [⟨5, 6, 7, 8⟩]).cells.length ∧
    readCell (runMethod
        (hCleanText ⟨[⟨5, 6, 7, 8⟩]⟩ 0 (.str ['a']) {}).1 0 .reset)
        (hCleanText ⟨[⟨5, 6, 7, 8⟩]⟩ 0 (.str ['a']) {}).2.statsRef =
      readCell (hCleanText ⟨[⟨5, 6, 7, 8⟩]⟩ 0 (.str ['a']) {}).1
        (hCleanText ⟨[⟨5, 6, 7, 8⟩]⟩ 0 (.str ['a']) {}).2.statsRef :=
  ⟨by decide, c10_snapshot ⟨[⟨5, 6, 7, 8⟩]⟩ 0 (.str ['a']) {} .reset (by decide)⟩

end CleanAI

